import Mathlib

/-!
Verification of the toss-the-remote movie-recommendation service.

Strings are modelled as `List Char` (`Str`).  Each definition is a direct
translation of the corresponding TypeScript function; JavaScript regular
expressions are modelled by structurally recursive scanners with the same
matching semantics (leftmost match, lazy/greedy quantifiers as noted at each
definition).  JavaScript `\s` is modelled by the ASCII whitespace characters
(space, tab, newline, carriage return, vertical tab, form feed); the inputs
of interest contain no other Unicode whitespace.
-/

namespace Toss

abbrev Str := List Char

/-- JS `\s` character class (ASCII part). -/
def isWS (c : Char) : Bool :=
  c == ' ' || c == '\t' || c == '\n' || c == '\r' ||
    c == Char.ofNat 11 || c == Char.ofNat 12

/-- Models `replace(/\s+/g, ' ')`: every maximal run of whitespace becomes one space.
The flag records whether the previous character was whitespace. -/
def collapseWSAux : Bool → Str → Str
  | _, [] => []
  | prevWS, c :: cs =>
    if isWS c then
      if prevWS then collapseWSAux true cs
      else ' ' :: collapseWSAux true cs
    else c :: collapseWSAux false cs

def collapseWS (s : Str) : Str := collapseWSAux false s

/-- Models `replace(/[“”]/g, '"')`: curly double quotes become `"`. -/
def normQuotes (s : Str) : Str :=
  s.map fun c =>
    if c == Char.ofNat 0x201C || c == Char.ofNat 0x201D then '"' else c

/-- JS `String.prototype.trim`. -/
def trimStr (s : Str) : Str :=
  ((s.dropWhile isWS).reverse.dropWhile isWS).reverse

/-- The normalisation prefix of `extractMovieInfo`:
`.replace(/\s+/g, ' ').replace(/[""]/g, '"').trim()`. -/
def normalizeInput (s : Str) : Str :=
  trimStr (normQuotes (collapseWS s))

/-- Does `\s*\((\d{4})\)` match at the head of `s`?  Returns the captured
four digits. -/
def parenYearAt (s : Str) : Option Str :=
  match s.dropWhile isWS with
  | '(' :: d1 :: d2 :: d3 :: d4 :: ')' :: _ =>
    if d1.isDigit && d2.isDigit && d3.isDigit && d4.isDigit then
      some [d1, d2, d3, d4]
    else none
  | _ => none

/-- The regex `/(.+?)\s*\((\d{4})\)/` applied to a string with no newlines:
the lazy `.+?` takes the least `i ≥ 1` such that after position `i`, optional
whitespace is followed by `(` four digits `)`.  Returns (group 1, group 2). -/
def matchFrom (taken : Str) : Str → Option (Str × Str)
  | [] => none
  | c :: cs =>
    match parenYearAt cs with
    | some y => some (taken ++ [c], y)
    | none => matchFrom (taken ++ [c]) cs

structure MovieInfo where
  title : Str
  year : Str
deriving DecidableEq

/-- Does the string begin with `(` four digits `)` (a parenthesized 4-digit
year, contiguously)? -/
def startsParenYear : Str → Bool
  | c0 :: d1 :: d2 :: d3 :: d4 :: c5 :: _ =>
    c0 == '(' && d1.isDigit && d2.isDigit && d3.isDigit && d4.isDigit &&
      c5 == ')'
  | _ => false

/-- Does the string contain a parenthesized 4-digit year anywhere? -/
def hasParenYear : Str → Bool
  | [] => false
  | c :: cs => startsParenYear (c :: cs) || hasParenYear cs

/-- Translation of `extractMovieInfo` from
`src/app/api/description/route.ts` (identical in
`modal/route.ts`): normalise, match `Title (Year)`, otherwise fall back to
the text before the first hyphen (`split('-')[0].trim()`). -/
def extractMovieInfo (movieString : Str) : MovieInfo :=
  let normalizedString := normalizeInput movieString
  match matchFrom [] normalizedString with
  | some (t, y) => ⟨trimStr t, y⟩
  | none => ⟨trimStr (normalizedString.takeWhile (fun c => c ≠ '-')), []⟩

/-- Case-insensitive match of a lowercase pattern against the head of `s`;
returns the remainder on success. -/
def stripPrefixCI (pat : Str) (s : Str) : Option Str :=
  match pat, s with
  | [], rest => some rest
  | p :: ps, c :: cs => if c.toLower == p then stripPrefixCI ps cs else none
  | _ :: _, [] => none

/-- One alternative of `^(the|a|an)\s+`: the article (case-insensitive)
followed by at least one whitespace character; `\s+` is greedy. -/
def tryArticle (pat : Str) (s : Str) : Option Str :=
  match stripPrefixCI pat s with
  | some (c :: cs) => if isWS c then some (cs.dropWhile isWS) else none
  | _ => none

/-- Models `replace(/^(the|a|an)\s+/i, '')` with the alternation tried in source
order `the`, `a`, `an`. -/
def stripArticle (s : Str) : Str :=
  match tryArticle ['t', 'h', 'e'] s with
  | some rest => rest
  | none =>
    match tryArticle ['a'] s with
    | some rest => rest
    | none =>
      match tryArticle ['a', 'n'] s with
      | some rest => rest
      | none => s

/-- JS `\w` = `[A-Za-z0-9_]`. -/
def isWordChar (c : Char) : Bool :=
  c.isAlpha || c.isDigit || c == '_'

/-- Models `replace(/[^\w\s'-]/g, ' ')`. -/
def blankSpecials (s : Str) : Str :=
  s.map fun c =>
    if isWordChar c || isWS c || c == '\'' || c == '-' then c else ' '

/-- Translation of `cleanMovieTitle` from
`src/app/api/description/route.ts`: strip one
leading article, blank special characters, collapse whitespace, trim. -/
def cleanMovieTitle (title : Str) : Str :=
  trimStr (collapseWS (blankSpecials (stripArticle title)))


/-! ### Metadata search and ranking (`description`/`modal` POST handlers) -/

def lowerStr (s : Str) : Str := s.map Char.toLower

/-- A TMDB search result (`TMDBSearchResult`), with `vote_average` modelled
exactly as a rational number. -/
structure Candidate where
  id : Nat
  title : Str
  release_date : Str
  vote_count : Nat
  vote_average : ℚ
deriving DecidableEq

/-- Models `new Date(releaseDate).getFullYear().toString()` on the ISO
`yyyy-mm-dd` dates TMDB returns: the leading four characters. -/
def getFullYearStr (releaseDate : Str) : Str := releaseDate.take 4

/-- The `exactTitleA` bonus: 1 when the candidate title equals the query title
case-insensitively, else 0. -/
def exactTitle (title : Str) (c : Candidate) : Nat :=
  if lowerStr c.title = lowerStr title then 1 else 0

/-- The `exactYearA` bonus: computed only inside `if (year)`, hence 0 whenever the
parsed year is empty. -/
def exactYear (year : Str) (c : Candidate) : Nat :=
  if year ≠ [] ∧ getFullYearStr c.release_date = year then 1 else 0

/-- The score `combinedScoreA = exactTitleA * 2 + exactYearA`. -/
def combinedScore (title year : Str) (c : Candidate) : Nat :=
  exactTitle title c * 2 + exactYear year c

/-- The tiebreaker `popularityA = (a.vote_count || 0) * (a.vote_average || 0)`. -/
def popularity (c : Candidate) : ℚ :=
  (c.vote_count : ℚ) * c.vote_average

/-- The result of the sort comparator: negative puts `a` first.
`if (combinedScoreA !== combinedScoreB) return combinedScoreB - combinedScoreA;
 return popularityB - popularityA;` -/
def cmpCandidates (title year : Str) (a b : Candidate) : ℚ :=
  if combinedScore title year a ≠ combinedScore title year b then
    (combinedScore title year b : ℚ) - combinedScore title year a
  else popularity b - popularity a

/-- The total preorder induced by the comparator: `a` may come before `b`. -/
def candLE (title year : Str) (a b : Candidate) : Prop :=
  cmpCandidates title year a b ≤ 0

instance (title year : Str) : DecidableRel (candLE title year) := fun a b =>
  inferInstanceAs (Decidable (cmpCandidates title year a b ≤ 0))

/-- Models `results.sort(comparator)`: ECMAScript `Array.prototype.sort` is stable,
and for a comparator inducing a total preorder every stable sort returns the
same list, so insertion sort models it exactly. -/
def sortCandidates (title year : Str) (results : List Candidate) :
    List Candidate :=
  List.insertionSort (candLE title year) results

/-- Models `const movieData = sortedResults[0]` — the candidate used for the detail
lookup. -/
def selectCandidate (title year : Str) (results : List Candidate) :
    Option Candidate :=
  (sortCandidates title year results).head?

/-- A search request to `/search/movie`: query string and optional `&year=`. -/
structure SearchQuery where
  query : Str
  year : Option Str
deriving DecidableEq

/-- Models the query-string fragment sending `&year=` exactly when the
parsed year string is non-empty; the year parameter is sent only when
the parsed year string is non-empty. -/
def yearParam (year : Str) : Option Str :=
  if year = [] then none else some year

/-- The search fallback chain of the `description`/`modal` handlers: exact
title (+ year), then cleaned title (+ year), then cleaned title alone;
`throw new Error('Movie not found')` when every attempt is empty.  The
upstream service is abstracted as the function `search`. -/
def searchChain (search : SearchQuery → List Candidate)
    (title year : Str) : Except Str (List Candidate) :=
  let r1 := search ⟨title, yearParam year⟩
  if r1 ≠ [] then .ok r1
  else
    let r2 := search ⟨cleanMovieTitle title, yearParam year⟩
    if r2 ≠ [] then .ok r2
    else
      let r3 := search ⟨cleanMovieTitle title, none⟩
      if r3 ≠ [] then .ok r3
      else .error "Movie not found".data

/-! ### Server-side exclusion filter (`recommend` POST handler) -/

/-- JS `String.prototype.split(sep)` for a one-character separator. -/
def splitOnChar (sep : Char) : Str → List Str
  | [] => [[]]
  | c :: cs =>
    if c = sep then [] :: splitOnChar sep cs
    else
      match splitOnChar sep cs with
      | r :: rs => (c :: r) :: rs
      | [] => [[c]]

/-- The regex `/^(.+?)\s*\(/` on a line (lines contain no newline): the least
nonempty prefix followed by optional whitespace and `(`; returns group 1. -/
def preParenFrom (taken : Str) : Str → Option Str
  | [] => none
  | c :: cs =>
    if (cs.dropWhile isWS).head? = some '(' then some (taken ++ [c])
    else preParenFrom (taken ++ [c]) cs

/-- The `recTitle` key: the regex capture trimmed and lowercased when the regex
matches, otherwise the whole line lowercased (untrimmed). -/
def recTitleKey (line : Str) : Str :=
  match preParenFrom [] line with
  | some t => lowerStr (trimStr t)
  | none => lowerStr line

/-- Models `excludedMovie.split('(')[0].trim().toLowerCase()`. -/
def excludeKey (excludedMovie : Str) : Str :=
  lowerStr (trimStr (excludedMovie.takeWhile (fun c => c ≠ '(')))

/-- The non-blank lines of the model output:
`recommendations.split('\n').filter(line => line.trim() !== '')`. -/
def nonblankLines (recommendations : Str) : List Str :=
  (splitOnChar '\n' recommendations).filter (fun line => trimStr line ≠ [])

/-- The lines kept by the server-side filter. -/
def keptLines (excludeMovies : List Str) (recommendations : Str) : List Str :=
  (nonblankLines recommendations).filter fun r =>
    ! excludeMovies.any (fun ex => excludeKey ex == recTitleKey r)

/-- The server-side exclusion filter of the `recommend` handler: applied only
when `excludeMovies.length > 0`; splits into non-blank lines, drops lines
whose title key matches an excluded movie, rejoins with newlines. -/
def filterRecommendations (excludeMovies : List Str)
    (recommendations : Str) : Str :=
  if excludeMovies.length > 0 then
    List.intercalate ['\n'] (keptLines excludeMovies recommendations)
  else recommendations


/-! ### Request handlers

Each Next.js route handler is translated as a total function from the
relevant environment key (`Option Str`, `none` when absent from
`process.env`), the parsed request body, and an abstraction of the upstream
service.  An upstream failure is an `Except` value carrying the data the
`catch` blocks inspect (`error.response?.status`, `error.message`); the
`try`/`catch` structure makes every handler return a JSON response, which is
why these functions are total. -/

/-- What a `catch` block can see of a thrown upstream error. -/
structure UpstreamError where
  status : Option Nat
  message : Str
deriving DecidableEq

/-- Models `error.response?.status || 500` (0 is falsy in JS). -/
def statusOr500 : Option Nat → Nat
  | some s => if s = 0 then 500 else s
  | none => 500

structure RecResponse where
  status : Nat
  error : Option Str
  recommendations : Option Str
deriving DecidableEq

/-- The `recommend` POST handler (exclusion-filter version): missing-key
guard first, then the `!movies` 400 guard, then the chat completion and the
server-side exclusion filter; thrown errors are converted by the `catch`
block. -/
def recommendPOST (openaiKey : Option Str) (movies : Str)
    (excludeMovies : List Str)
    (callModel : Str → List Str → Except UpstreamError Str) : RecResponse :=
  match openaiKey with
  | none => ⟨500, some "OpenAI API key is not configured".data, none⟩
  | some _ =>
    if movies = [] then
      ⟨400, some "Please provide a list of movies".data, none⟩
    else
      match callModel movies excludeMovies with
      | .ok content =>
        ⟨200, none, some (filterRecommendations excludeMovies content)⟩
      | .error e =>
        let msg :=
          if e.status = some 401 then "Invalid API key".data
          else if e.message ≠ [] then "Error: ".data ++ e.message
          else "Failed to get recommendations".data
        ⟨statusOr500 e.status, some msg, none⟩

structure MetaResponse where
  status : Nat
  error : Option Str
  selectedId : Option Nat
deriving DecidableEq

/-- The `description` POST handler: `!movieName` 400 guard, then extraction,
then the missing-key guard, then the search chain, ranking, and rank-0
selection (`sortedResults[0].id` drives the detail lookup).  A chain failure
reaches the `catch` block as `Error: Movie not found` with status 500. -/
def descriptionPOST (tmdbKey : Option Str) (movieName : Str)
    (search : SearchQuery → List Candidate) : MetaResponse :=
  if movieName = [] then
    ⟨400, some "Please provide a movie title".data, none⟩
  else
    let info := extractMovieInfo movieName
    match tmdbKey with
    | none => ⟨500, some "Movie API key is not configured".data, none⟩
    | some _ =>
      match searchChain search info.title info.year with
      | .error e => ⟨500, some ("Error: ".data ++ e), none⟩
      | .ok results =>
        ⟨200, none, (selectCandidate info.title info.year results).map
          Candidate.id⟩

/-- The `modal` POST handler: same shape as `description` with its own
guard messages and the key check before extraction. -/
def modalPOST (tmdbKey : Option Str) (movieName : Str)
    (search : SearchQuery → List Candidate) : MetaResponse :=
  if movieName = [] then
    ⟨400, some "Movie name is required".data, none⟩
  else
    match tmdbKey with
    | none => ⟨500, some "TMDB API key not configured".data, none⟩
    | some _ =>
      let info := extractMovieInfo movieName
      match searchChain search info.title info.year with
      | .error e => ⟨500, some ("Error: ".data ++ e), none⟩
      | .ok results =>
        ⟨200, none, (selectCandidate info.title info.year results).map
          Candidate.id⟩

structure TrendResponse where
  status : Nat
  error : Option Str
  ok : Bool
deriving DecidableEq

/-- The `trending` GET handler: missing-key guard, then the upstream fetch;
a non-ok upstream response is thrown and caught, yielding a generic error. -/
def trendingGET (tmdbKey : Option Str)
    (fetchTrending : Except UpstreamError Unit) : TrendResponse :=
  match tmdbKey with
  | none =>
    ⟨500, some "Server configuration error: TMDB API key is missing.".data,
      false⟩
  | some _ =>
    match fetchTrending with
    | .ok _ => ⟨200, none, true⟩
    | .error e =>
      ⟨statusOr500 e.status, some "Failed to fetch trending movies".data,
        false⟩

/-! ### Client state for the "Get more" flow (`page.tsx`) -/

/-- The slice of the `Home` component state that `handleGetMoreMovies`
touches.  The `descriptions`/`showingDetails` records are abstracted to
their key sets. -/
structure ClientState where
  movies : Str
  recommendations : Option Str
  error : Option Str
  previousMovies : List Str
  descriptions : List Str
  showingDetails : List Str
  isLoadingMore : Bool
deriving DecidableEq

/-- Translation of `parseInputMovies`: split on commas, trim, drop empties.  (The final
`map` of the source returns `movie.trim()` on both branches of its
year-detection `if`, which is the identity on the already-trimmed entries.) -/
def parseInputMovies (inputText : Str) : List Str :=
  if trimStr inputText = [] then []
  else ((splitOnChar ',' inputText).map trimStr).filter fun m => m.length > 0

/-- Models `[...new Set(l)]`: first occurrences, in order. -/
def dedupFirstAux (seen : List Str) : List Str → List Str
  | [] => []
  | x :: xs =>
    if x ∈ seen then dedupFirstAux seen xs
    else x :: dedupFirstAux (x :: seen) xs

def dedupFirst (l : List Str) : List Str := dedupFirstAux [] l

/-- The `excludeMovies` field `handleGetMoreMovies` sends:
`[...new Set([...inputMovies, ...previousMovies])]`. -/
def getMoreExcludeList (s : ClientState) : List Str :=
  dedupFirst (parseInputMovies s.movies ++ s.previousMovies)

/-- The synchronous prefix of `handleGetMoreMovies`, up to and including the
request: sets the loading flag, clears the error and the per-line detail
records, and leaves `recommendations` and `previousMovies` untouched. -/
def handleGetMoreStart (s : ClientState) : ClientState :=
  { s with isLoadingMore := true, error := none, descriptions := [],
           showingDetails := [] }

/-- The success continuation of `handleGetMoreMovies`: stores the response
text, appends its non-blank lines to `previousMovies`, resets the flag. -/
def handleGetMoreSuccess (s : ClientState) (responseText : Str) :
    ClientState :=
  let started := handleGetMoreStart s
  let newMovieList := nonblankLines responseText
  { started with
      recommendations := some responseText,
      previousMovies := started.previousMovies ++ newMovieList,
      isLoadingMore := false }

/-! ### Auxiliary notions used only in statements and proofs -/

/-- The state of the whitespace-collapsing scanner after a string: was the
last character processed whitespace? -/
def wsEnd : Bool → Str → Bool
  | b, [] => b
  | _, c :: cs => wsEnd (isWS c) cs

/-- Dropping trailing whitespace (the right half of `trim`). -/
def dropTrailWS (s : Str) : Str := (s.reverse.dropWhile isWS).reverse

/-- An `Option Str` error field that is present and non-empty. -/
def NonemptyError (e : Option Str) : Prop := ∃ m, e = some m ∧ m ≠ []

/-- Upstream stub for the C2 witness: only the cleaned query without a year
constraint produces a result. -/
def broadOnlySearch : SearchQuery → List Candidate := fun q =>
  if q.query = "Matrix".data ∧ q.year = none then
    [⟨603, "The Matrix".data, "1999-03-30".data, 26000, 81 / 10⟩]
  else []

/-- Initial client state for the C8 witness. -/
def demoState : ClientState :=
  ⟨"Heat".data, some "Collateral (2004) - Michael Mann".data, none,
    ["Heat".data, "Collateral (2004) - Michael Mann".data], [], [], false⟩

/-- Two well-formed recommendation lines for the C5 amended witness. -/
def twoRecLines : Str :=
  "Heat (1995) - Michael Mann\nThe Departed (2006) - Martin Scorsese".data

/-- Bool predicate: the head of `r`, if any, is not whitespace. -/
def headNotWS : Str → Bool
  | [] => true
  | c :: _ => !isWS c

/-- Candidates for the C1 witness: identical popularity, but only the
second matches both the queried title and year. -/
def offYearCand : Candidate :=
  ⟨27205, "Heat".data, "1972-01-01".data, 100, 8⟩

def matchingCand : Candidate :=
  ⟨949, "Heat".data, "1995-12-15".data, 100, 8⟩

/-! ### Helper lemmas -/

theorem mem_dedupFirstAux {a : Str} :
    ∀ (l seen : List Str), a ∈ dedupFirstAux seen l ↔ a ∈ l ∧ a ∉ seen := by
  intro l
  induction l with
  | nil => intro seen; simp [dedupFirstAux]
  | cons x xs ih =>
    intro seen
    by_cases hx : x ∈ seen
    · simp only [dedupFirstAux, if_pos hx, ih, List.mem_cons]
      constructor
      · rintro ⟨h1, h2⟩; exact ⟨Or.inr h1, h2⟩
      · rintro ⟨h1 | h1, h2⟩
        · exact absurd (h1 ▸ hx) h2
        · exact ⟨h1, h2⟩
    · simp only [dedupFirstAux, if_neg hx, List.mem_cons, ih]
      constructor
      · rintro (rfl | ⟨h1, h2⟩)
        · exact ⟨Or.inl rfl, hx⟩
        · have h2' : a ∉ seen := fun hs => h2 (by simp [hs])
          exact ⟨Or.inr h1, h2'⟩
      · rintro ⟨rfl | h1, h2⟩
        · exact Or.inl rfl
        · by_cases hax : a = x
          · exact Or.inl hax
          · exact Or.inr ⟨h1, by simp [hax, h2]⟩

theorem mem_dedupFirst {a : Str} {l : List Str} :
    a ∈ dedupFirst l ↔ a ∈ l := by
  simp [dedupFirst, mem_dedupFirstAux]

/-! ### C2: search fallback chain -/

/-- C2: for every parsed `(title, year)` the metadata search tries, in
order, (a) the exact title with the year constraint, (b) the cleaned title
with the year constraint, (c) the cleaned title without the year, stopping
at the first attempt with at least one result, and fails with the
`Movie not found` error exactly when all three attempts are empty. -/
theorem searchChain_fallback_order (search : SearchQuery → List Candidate)
    (title year : Str) :
    (searchChain search title year = .error "Movie not found".data ↔
      search ⟨title, yearParam year⟩ = [] ∧
        search ⟨cleanMovieTitle title, yearParam year⟩ = [] ∧
        search ⟨cleanMovieTitle title, none⟩ = []) ∧
    (search ⟨title, yearParam year⟩ ≠ [] →
      searchChain search title year = .ok (search ⟨title, yearParam year⟩)) ∧
    (search ⟨title, yearParam year⟩ = [] →
      search ⟨cleanMovieTitle title, yearParam year⟩ ≠ [] →
      searchChain search title year =
        .ok (search ⟨cleanMovieTitle title, yearParam year⟩)) ∧
    (search ⟨title, yearParam year⟩ = [] →
      search ⟨cleanMovieTitle title, yearParam year⟩ = [] →
      search ⟨cleanMovieTitle title, none⟩ ≠ [] →
      searchChain search title year =
        .ok (search ⟨cleanMovieTitle title, none⟩)) := by
  by_cases h1 : search ⟨title, yearParam year⟩ = [] <;>
    by_cases h2 : search ⟨cleanMovieTitle title, yearParam year⟩ = [] <;>
      by_cases h3 : search ⟨cleanMovieTitle title, none⟩ = [] <;>
        simp [searchChain, h1, h2, h3]

theorem searchChain_fallback_order_witness :
    searchChain broadOnlySearch "The Matrix".data "1999".data =
      .ok [⟨603, "The Matrix".data, "1999-03-30".data, 26000, 81 / 10⟩] :=
  (searchChain_fallback_order broadOnlySearch "The Matrix".data
    "1999".data).2.2.2 (by decide) (by decide) (by decide)

/-! ### C9: the exclusion filter never invents output -/

/-- C9: with an empty exclusion list the model text is returned unchanged;
with a non-empty one the returned text is a newline-join of a subsequence of
the original non-blank lines, in their original order. -/
theorem filter_is_subsequence (excludeMovies : List Str) (t : Str) :
    (excludeMovies = [] → filterRecommendations excludeMovies t = t) ∧
    (excludeMovies ≠ [] →
      ∃ ls, ls.Sublist (nonblankLines t) ∧
        filterRecommendations excludeMovies t = List.intercalate ['\n'] ls) := by
  constructor
  · intro h; simp [filterRecommendations, h]
  · intro h
    refine ⟨keptLines excludeMovies t, List.filter_sublist _, ?_⟩
    have hlen : 0 < excludeMovies.length := List.length_pos.mpr h
    simp [filterRecommendations, hlen]

theorem filter_is_subsequence_witness :
    filterRecommendations [] "a\n\nb".data = "a\n\nb".data ∧
    ∃ ls, ls.Sublist (nonblankLines "a\n\nb".data) ∧
      filterRecommendations ["a".data] "a\n\nb".data =
        List.intercalate ['\n'] ls :=
  ⟨(filter_is_subsequence [] "a\n\nb".data).1 rfl,
    (filter_is_subsequence ["a".data] "a\n\nb".data).2 (by decide)⟩

/-! ### C8: the "Get more" flow -/

/-- C8: issuing the request leaves the shown recommendation list untouched
(unlike `handleSubmit`, which nulls it); on success the newly fetched
non-blank lines are appended to `previousMovies` with nothing removed, and
each of them is contained in the `excludeMovies` list of the next
"Get more" request. -/
theorem getMore_appends_exclusions (s : ClientState) (responseText : Str) :
    (handleGetMoreStart s).recommendations = s.recommendations ∧
    (handleGetMoreSuccess s responseText).previousMovies =
      s.previousMovies ++ nonblankLines responseText ∧
    (∀ line ∈ nonblankLines responseText,
      line ∈ getMoreExcludeList (handleGetMoreSuccess s responseText)) := by
  refine ⟨rfl, rfl, fun line hline => ?_⟩
  have : line ∈ (handleGetMoreSuccess s responseText).previousMovies :=
    List.mem_append_right _ hline
  exact mem_dedupFirst.mpr (List.mem_append_right _ this)

theorem getMore_appends_exclusions_witness :
    (handleGetMoreStart demoState).recommendations =
      demoState.recommendations ∧
    (handleGetMoreSuccess demoState "Ronin (1998) - John Frankenheimer".data
      ).previousMovies = demoState.previousMovies ++
        nonblankLines "Ronin (1998) - John Frankenheimer".data ∧
    "Ronin (1998) - John Frankenheimer".data ∈
      getMoreExcludeList
        (handleGetMoreSuccess demoState
          "Ronin (1998) - John Frankenheimer".data) := by
  obtain ⟨h1, h2, h3⟩ :=
    getMore_appends_exclusions demoState
      "Ronin (1998) - John Frankenheimer".data
  exact ⟨h1, h2, h3 _ (by decide)⟩

/-! ### C6: missing upstream keys -/

/-- C6 counterexample: a `description` request with no `movieName` while the
TMDB key is absent is answered with status 400, not 500, because the
`!movieName` guard runs before the key guard. -/
theorem missing_key_counterexample :
    (descriptionPOST none [] (fun _ => [])).status = 400 ∧
      (descriptionPOST none [] (fun _ => [])).status ≠ 500 := by
  constructor <;> decide

/-- C6 amended: with the key absent, `recommend` and `trending` always
answer 500 with a non-empty error body; `description` and `modal` answer
500 with a non-empty error body whenever a `movieName` is provided and 400
with a non-empty error body otherwise.  Every handler returns a JSON
response (the functions are total), so no exception reaches the caller. -/
theorem missing_key_amended (movies movieName : Str) (excl : List Str)
    (callModel : Str → List Str → Except UpstreamError Str)
    (search search' : SearchQuery → List Candidate)
    (ft : Except UpstreamError Unit) :
    ((recommendPOST none movies excl callModel).status = 500 ∧
      NonemptyError (recommendPOST none movies excl callModel).error) ∧
    ((trendingGET none ft).status = 500 ∧
      NonemptyError (trendingGET none ft).error) ∧
    (movieName ≠ [] →
      (descriptionPOST none movieName search).status = 500 ∧
        NonemptyError (descriptionPOST none movieName search).error) ∧
    (movieName = [] →
      (descriptionPOST none movieName search).status = 400 ∧
        NonemptyError (descriptionPOST none movieName search).error) ∧
    (movieName ≠ [] →
      (modalPOST none movieName search').status = 500 ∧
        NonemptyError (modalPOST none movieName search').error) ∧
    (movieName = [] →
      (modalPOST none movieName search').status = 400 ∧
        NonemptyError (modalPOST none movieName search').error) := by
  refine ⟨⟨rfl, _, rfl, by decide⟩, ⟨rfl, _, rfl, by decide⟩, ?_, ?_, ?_, ?_⟩
  · intro h
    unfold descriptionPOST
    rw [if_neg h]
    exact ⟨rfl, _, rfl, by decide⟩
  · intro h
    unfold descriptionPOST
    rw [if_pos h]
    exact ⟨rfl, _, rfl, by decide⟩
  · intro h
    unfold modalPOST
    rw [if_neg h]
    exact ⟨rfl, _, rfl, by decide⟩
  · intro h
    unfold modalPOST
    rw [if_pos h]
    exact ⟨rfl, _, rfl, by decide⟩

theorem missing_key_amended_witness :
    ((recommendPOST none "Heat".data [] (fun _ _ => .ok [])).status = 500 ∧
      NonemptyError
        (recommendPOST none "Heat".data [] (fun _ _ => .ok [])).error) ∧
    ((descriptionPOST none "Heat (1995)".data (fun _ => [])).status = 500 ∧
      NonemptyError
        (descriptionPOST none "Heat (1995)".data (fun _ => [])).error) ∧
    ((modalPOST none [] (fun _ => [])).status = 400 ∧
      NonemptyError (modalPOST none [] (fun _ => [])).error) := by
  refine ⟨(missing_key_amended "Heat".data "Heat (1995)".data []
      (fun _ _ => .ok []) (fun _ => []) (fun _ => []) (.ok ())).1, ?_, ?_⟩
  · exact (missing_key_amended "Heat".data "Heat (1995)".data []
      (fun _ _ => .ok []) (fun _ => []) (fun _ => []) (.ok ())).2.2.1
      (by decide)
  · exact (missing_key_amended "Heat".data ([] : Str) []
      (fun _ _ => .ok []) (fun _ => []) (fun _ => []) (.ok ())).2.2.2.2.2 rfl

/-! ### C5: the server-side exclusion filter -/

/-- C5 counterexample: the non-blank line `"Up "` (trailing space, no
parenthesis) has the same pre-parenthesis title as the excluded `"Up"`
after trimming and lowercasing, so the claim demands its removal; but the
code compares such a line whole and untrimmed, keeps it, and returns it. -/
theorem exclusion_filter_counterexample :
    excludeKey "Up ".data = excludeKey "Up".data ∧
    "Up ".data ∈ keptLines ["Up".data] "Up ".data ∧
    filterRecommendations ["Up".data] "Up ".data = "Up ".data := by
  refine ⟨by decide, by decide, by decide⟩

theorem dropWhile_all_append {p : Char → Bool} {w : Str} (y : Str)
    (hw : ∀ c ∈ w, p c = true) :
    (w ++ y).dropWhile p = y.dropWhile p := by
  induction w with
  | nil => rfl
  | cons c cs ih =>
    simp only [List.cons_append, List.dropWhile_cons,
      hw c (List.mem_cons_self c cs), if_true]
    exact ih fun d hd => hw d (List.mem_cons_of_mem _ hd)

theorem dropWhile_head_not {p : Char → Bool} {r : Str}
    (hr : ∀ c, r.head? = some c → p c = false) : r.dropWhile p = r := by
  cases r with
  | nil => rfl
  | cons c cs => simp [List.dropWhile_cons, hr c rfl]

theorem isWS_spec {c : Char} :
    isWS c = true ↔
      c = ' ' ∨ c = '\t' ∨ c = '\n' ∨ c = '\r' ∨
        c = Char.ofNat 11 ∨ c = Char.ofNat 12 := by
  simp [isWS, or_assoc]

theorem trimStr_append_ws {p : Str} {w : Str}
    (hw : ∀ c ∈ w, isWS c = true) : trimStr (p ++ w) = trimStr p := by
  unfold trimStr
  rcases hd : p.dropWhile isWS with _ | ⟨c, cs⟩
  · have hp : ∀ c ∈ p, isWS c = true := by
      intro c hc
      by_contra hcf
      have : p.dropWhile isWS ≠ [] := by
        intro hnil
        rcases List.dropWhile_eq_nil_iff.mp hnil c hc with h
        exact hcf h
      exact this hd
    have : (p ++ w).dropWhile isWS = [] := by
      rw [dropWhile_all_append w hp]
      exact List.dropWhile_eq_nil_iff.mpr fun c hc => hw c hc
    simp [this, hd]
  · have h1 : (p ++ w).dropWhile isWS = p.dropWhile isWS ++ w := by
      induction p with
      | nil =>
        simp at hd
      | cons a as ih =>
        simp only [List.cons_append, List.dropWhile_cons]
        by_cases ha : isWS a
        · simp only [ha, if_true]
          simp only [List.dropWhile_cons, ha, if_true] at hd
          exact ih hd
        · simp [ha]
    rw [h1, hd, List.reverse_append]
    rw [dropWhile_all_append _ fun c hc => hw c (List.mem_reverse.mp hc)]

theorem takeWhile_ws_pre {w : Str} (hw : ∀ c ∈ w, isWS c = true)
    (r : Str) (hr : r.head? = some '(') :
    (w ++ r).takeWhile (fun c => c ≠ '(') = w := by
  induction w with
  | nil =>
    cases r with
    | nil => simp at hr
    | cons c cs =>
      have hc : c = '(' := by simpa using hr
      subst hc
      simp [List.takeWhile_cons]
  | cons c cs ih =>
    have hc := hw c (List.mem_cons_self c cs)
    have hcne : c ≠ '(' := by
      rcases isWS_spec.mp hc with rfl | rfl | rfl | rfl | rfl | rfl <;> decide
    have h' := ih fun d hd => hw d (List.mem_cons_of_mem _ hd)
    simp only [decide_not] at h'
    simp [List.cons_append, List.takeWhile_cons, hcne, h']

/-- On a line whose first parenthesis is preceded by at least one character,
the regex `/^(.+?)\s*\(/` captures the pre-parenthesis text minus some
trailing whitespace. -/
theorem preParen_capture :
    ∀ (l taken : Str), '(' ∈ l → l.head? ≠ some '(' →
      ∃ t w, preParenFrom taken l = some (taken ++ t) ∧
        l.takeWhile (fun c => c ≠ '(') = t ++ w ∧ ∀ c ∈ w, isWS c = true := by
  intro l
  induction l with
  | nil => intro taken h; simp at h
  | cons c cs ih =>
    intro taken hmem hhd
    have hc : c ≠ '(' := fun h => hhd (by simp [h])
    have hcs : '(' ∈ cs := by
      rcases List.mem_cons.mp hmem with h | h
      · exact absurd h.symm hc
      · exact h
    by_cases hA : (cs.dropWhile isWS).head? = some '('
    · refine ⟨[c], cs.takeWhile (fun d => d ≠ '('), ?_, ?_, ?_⟩
      · simp [preParenFrom, hA]
      · have hsplit := List.takeWhile_append_dropWhile (p := isWS) (l := cs)
        have hws : ∀ d ∈ cs.takeWhile isWS, isWS d = true := fun d hd =>
          List.mem_takeWhile_imp hd
        have : cs.takeWhile (fun d => d ≠ '(') = cs.takeWhile isWS := by
          conv_lhs => rw [← hsplit]
          exact takeWhile_ws_pre hws _ hA
        simp only [List.takeWhile_cons]
        rw [if_pos (decide_eq_true hc)]
        simp [this]
      · intro d hd
        have : cs.takeWhile (fun d => d ≠ '(') = cs.takeWhile isWS := by
          conv_lhs =>
            rw [← List.takeWhile_append_dropWhile (p := isWS) (l := cs)]
          exact takeWhile_ws_pre
            (fun d hd => List.mem_takeWhile_imp hd) _ hA
        rw [this] at hd
        exact List.mem_takeWhile_imp hd
    · have hcshd : cs.head? ≠ some '(' := by
        intro h
        cases cs with
        | nil => simp at h
        | cons d ds =>
          have hd : d = '(' := by simpa using h
          subst hd
          exact hA (by
            simp [List.dropWhile_cons, (by decide : isWS '(' = false)])
      obtain ⟨t', w, h1, h2, h3⟩ := ih (taken ++ [c]) hcs hcshd
      refine ⟨c :: t', w, ?_, ?_, h3⟩
      · have : preParenFrom taken (c :: cs) = preParenFrom (taken ++ [c]) cs := by
          simp [preParenFrom, hA]
        rw [this, h1]
        simp
      · simp only [List.takeWhile_cons]
        rw [if_pos (decide_eq_true hc)]
        simp only [decide_not] at h2
        simp [h2]

/-- C5 amended: with a non-empty exclusion list, the filter keeps exactly
the non-blank lines whose comparison key differs from every excluded
movie's key; a line's key is the trimmed, lowercased pre-parenthesis text
whenever the line contains a parenthesis preceded by at least one
character, but a line without such a parenthesis is compared whole and
untrimmed (lowercased only), so a surrounding-whitespace variant of an
excluded title survives the filter. -/
theorem exclusion_filter_amended (excludeMovies : List Str) (t : Str)
    (hne : excludeMovies ≠ []) :
    (filterRecommendations excludeMovies t =
      List.intercalate ['\n'] (keptLines excludeMovies t)) ∧
    (∀ line ∈ nonblankLines t,
      (line ∈ keptLines excludeMovies t ↔
        ∀ ex ∈ excludeMovies, excludeKey ex ≠ recTitleKey line)) ∧
    (∀ line : Str, line.head? ≠ some '(' → '(' ∈ line →
      recTitleKey line =
        lowerStr (trimStr (line.takeWhile (fun c => c ≠ '(')))) := by
  refine ⟨?_, ?_, ?_⟩
  · simp [filterRecommendations, List.length_pos.mpr hne]
  · intro line hline
    simp [keptLines, List.mem_filter, hline]
  · intro line hhd hmem
    obtain ⟨tt, w, h1, h2, h3⟩ := preParen_capture line [] hmem hhd
    simp only [List.nil_append] at h1
    rw [recTitleKey, h1, h2, trimStr_append_ws h3]

theorem exclusion_filter_amended_witness :
    filterRecommendations ["The Departed".data] twoRecLines =
      List.intercalate ['\n'] (keptLines ["The Departed".data] twoRecLines) ∧
    recTitleKey "Heat (1995) - Michael Mann".data =
      lowerStr (trimStr (List.takeWhile (fun c => c ≠ '(')
        "Heat (1995) - Michael Mann".data)) := by
  obtain ⟨h1, _, h3⟩ :=
    exclusion_filter_amended ["The Departed".data] twoRecLines (by decide)
  exact ⟨h1, h3 _ (by decide) (by decide)⟩

/-! ### C7: the title cleaner -/

theorem dropWhile_headNotWS {r : Str} (h : headNotWS r = true) :
    r.dropWhile isWS = r := by
  cases r with
  | nil => rfl
  | cons c cs =>
    simp only [headNotWS, Bool.not_eq_true'] at h
    simp [List.dropWhile_cons, h]

theorem tryArticle_head_fail {p : Char} {ps : Str} {a1 : Char} {l : Str}
    (h : (a1.toLower == p) = false) :
    tryArticle (p :: ps) (a1 :: l) = none := by
  simp [tryArticle, stripPrefixCI, h]

theorem stripArticle_the {a1 a2 a3 : Char} {ws r : Str}
    (h1 : a1.toLower = 't') (h2 : a2.toLower = 'h') (h3 : a3.toLower = 'e')
    (hw : ws ≠ []) (hws : ∀ c ∈ ws, isWS c = true) (hr : headNotWS r = true) :
    stripArticle (a1 :: a2 :: a3 :: (ws ++ r)) = r := by
  cases ws with
  | nil => exact absurd rfl hw
  | cons w ws' =>
    have hwWS : isWS w = true := hws w (List.mem_cons_self _ _)
    have : tryArticle ['t', 'h', 'e'] (a1 :: a2 :: a3 :: (w :: ws' ++ r)) =
        some ((ws' ++ r).dropWhile isWS) := by
      simp [tryArticle, stripPrefixCI, h1, h2, h3, hwWS]
    rw [stripArticle, this,
      dropWhile_all_append r fun c hc => hws c (List.mem_cons_of_mem _ hc),
      dropWhile_headNotWS hr]

theorem stripArticle_a {a1 : Char} {ws r : Str}
    (h1 : a1.toLower = 'a')
    (hw : ws ≠ []) (hws : ∀ c ∈ ws, isWS c = true) (hr : headNotWS r = true) :
    stripArticle (a1 :: (ws ++ r)) = r := by
  cases ws with
  | nil => exact absurd rfl hw
  | cons w ws' =>
    have hwWS : isWS w = true := hws w (List.mem_cons_self _ _)
    have hthe : tryArticle ['t', 'h', 'e'] (a1 :: (w :: ws' ++ r)) = none :=
      tryArticle_head_fail (by simp [h1])
    have ha : tryArticle ['a'] (a1 :: (w :: ws' ++ r)) =
        some ((ws' ++ r).dropWhile isWS) := by
      simp [tryArticle, stripPrefixCI, h1, hwWS]
    rw [stripArticle, hthe, ha,
      dropWhile_all_append r fun c hc => hws c (List.mem_cons_of_mem _ hc),
      dropWhile_headNotWS hr]

theorem not_isWS_of_toLower_n {c : Char} (h : c.toLower = 'n') :
    isWS c = false := by
  by_contra hne
  have hc : isWS c = true := by
    cases hb : isWS c
    · exact absurd hb hne
    · rfl
  rcases isWS_spec.mp hc with rfl | rfl | rfl | rfl | rfl | rfl <;>
    exact absurd h (by decide)

theorem stripArticle_an {a1 a2 : Char} {ws r : Str}
    (h1 : a1.toLower = 'a') (h2 : a2.toLower = 'n')
    (hw : ws ≠ []) (hws : ∀ c ∈ ws, isWS c = true) (hr : headNotWS r = true) :
    stripArticle (a1 :: a2 :: (ws ++ r)) = r := by
  cases ws with
  | nil => exact absurd rfl hw
  | cons w ws' =>
    have hwWS : isWS w = true := hws w (List.mem_cons_self _ _)
    have hthe : tryArticle ['t', 'h', 'e'] (a1 :: a2 :: (w :: ws' ++ r)) =
        none := tryArticle_head_fail (by rw [h1]; decide)
    have ha : tryArticle ['a'] (a1 :: a2 :: (w :: ws' ++ r)) = none := by
      simp [tryArticle, stripPrefixCI, h1, not_isWS_of_toLower_n h2]
    have han : tryArticle ['a', 'n'] (a1 :: a2 :: (w :: ws' ++ r)) =
        some ((ws' ++ r).dropWhile isWS) := by
      simp [tryArticle, stripPrefixCI, h1, h2, hwWS]
    rw [stripArticle, hthe, ha, han,
      dropWhile_all_append r fun c hc => hws c (List.mem_cons_of_mem _ hc),
      dropWhile_headNotWS hr]

theorem mem_collapseWSAux {c : Char} :
    ∀ (s : Str) (b : Bool), c ∈ collapseWSAux b s →
      c = ' ' ∨ (c ∈ s ∧ isWS c = false) := by
  intro s
  induction s with
  | nil => intro b h; simp [collapseWSAux] at h
  | cons a as ih =>
    intro b h
    by_cases ha : isWS a
    · simp only [collapseWSAux, ha, if_true] at h
      cases b with
      | true =>
        rcases ih true h with h' | ⟨h1, h2⟩
        · exact Or.inl h'
        · exact Or.inr ⟨List.mem_cons_of_mem _ h1, h2⟩
      | false =>
        rcases List.mem_cons.mp h with rfl | h'
        · exact Or.inl rfl
        · rcases ih true h' with h'' | ⟨h1, h2⟩
          · exact Or.inl h''
          · exact Or.inr ⟨List.mem_cons_of_mem _ h1, h2⟩
    · simp only [collapseWSAux, ha, if_false] at h
      rcases List.mem_cons.mp h with rfl | h'
      · exact Or.inr ⟨List.mem_cons_self _ _, by
          cases hb : isWS c
          · rfl
          · exact absurd hb ha⟩
      · rcases ih false h' with h'' | ⟨h1, h2⟩
        · exact Or.inl h''
        · exact Or.inr ⟨List.mem_cons_of_mem _ h1, h2⟩

theorem mem_dropWhile {p : Char → Bool} :
    ∀ {l : Str} {c : Char}, c ∈ l.dropWhile p → c ∈ l := by
  intro l
  induction l with
  | nil => intro c h; simp at h
  | cons a as ih =>
    intro c h
    by_cases hp : p a
    · simp only [List.dropWhile_cons, hp, if_true] at h
      exact List.mem_cons_of_mem _ (ih h)
    · simp only [List.dropWhile_cons, hp, if_false] at h
      exact h

theorem mem_trimStr {c : Char} {s : Str} (h : c ∈ trimStr s) : c ∈ s := by
  unfold trimStr at h
  rw [List.mem_reverse] at h
  have h1 := mem_dropWhile h
  rw [List.mem_reverse] at h1
  exact mem_dropWhile h1

/-- C7: the cleaner strips one leading article (case-insensitively, followed
by whitespace), blanks every character that is neither a word character,
whitespace, apostrophe nor hyphen, collapses whitespace and trims; in
particular the cleaned output contains only word characters, single spaces,
apostrophes and hyphens, and cleaning `The Matrix` yields `Matrix`. -/
theorem cleanMovieTitle_spec :
    cleanMovieTitle "The Matrix".data = "Matrix".data ∧
    (∀ (a1 a2 a3 : Char) (ws r : Str), a1.toLower = 't' → a2.toLower = 'h' →
      a3.toLower = 'e' → ws ≠ [] → (∀ c ∈ ws, isWS c = true) →
      headNotWS r = true →
      cleanMovieTitle (a1 :: a2 :: a3 :: (ws ++ r)) =
        trimStr (collapseWS (blankSpecials r))) ∧
    (∀ (a1 : Char) (ws r : Str), a1.toLower = 'a' → ws ≠ [] →
      (∀ c ∈ ws, isWS c = true) → headNotWS r = true →
      cleanMovieTitle (a1 :: (ws ++ r)) =
        trimStr (collapseWS (blankSpecials r))) ∧
    (∀ (a1 a2 : Char) (ws r : Str), a1.toLower = 'a' → a2.toLower = 'n' →
      ws ≠ [] → (∀ c ∈ ws, isWS c = true) → headNotWS r = true →
      cleanMovieTitle (a1 :: a2 :: (ws ++ r)) =
        trimStr (collapseWS (blankSpecials r))) ∧
    (∀ (s : Str) (c : Char), c ∈ cleanMovieTitle s →
      (isWordChar c || c == ' ' || c == '\'' || c == '-') = true) := by
  refine ⟨by decide, ?_, ?_, ?_, ?_⟩
  · intro a1 a2 a3 ws r h1 h2 h3 hw hws hr
    rw [cleanMovieTitle, stripArticle_the h1 h2 h3 hw hws hr]
  · intro a1 ws r h1 hw hws hr
    rw [cleanMovieTitle, stripArticle_a h1 hw hws hr]
  · intro a1 a2 ws r h1 h2 hw hws hr
    rw [cleanMovieTitle, stripArticle_an h1 h2 hw hws hr]
  · intro s c hc
    have h1 := mem_trimStr hc
    rcases mem_collapseWSAux _ false h1 with rfl | ⟨h2, h3⟩
    · decide
    · rcases List.mem_map.mp h2 with ⟨a, _, hfa⟩
      by_cases hgood :
          (isWordChar a || isWS a || a == '\'' || a == '-') = true
      · rw [if_pos hgood] at hfa
        subst hfa
        rcases Bool.or_eq_true_iff.mp hgood with h | h
        · rcases Bool.or_eq_true_iff.mp h with h' | h'
          · rcases Bool.or_eq_true_iff.mp h' with h'' | h''
            · simp [h'']
            · rw [h''] at h3; exact absurd h3 (by simp)
          · simp [h']
        · simp [h]
      · rw [if_neg hgood] at hfa
        subst hfa
        decide

theorem cleanMovieTitle_spec_witness :
    cleanMovieTitle "An American Tail".data =
      trimStr (collapseWS (blankSpecials "American Tail".data)) ∧
    ('M' ∈ cleanMovieTitle "The Matrix".data →
      (isWordChar 'M' || 'M' == ' ' || 'M' == '\'' || 'M' == '-') = true) := by
  refine ⟨?_, cleanMovieTitle_spec.2.2.2.2 "The Matrix".data 'M'⟩
  exact cleanMovieTitle_spec.2.2.2.1 'A' 'n' [' '] "American Tail".data
    (by decide) (by decide) (by decide) (by decide) (by decide)

/-! ### The `Title (Year)` matcher -/

theorem isInfix_of_pre {l₁ l₂ : Str} (h : l₁ <+: l₂) : l₁ <:+: l₂ := by
  obtain ⟨t, ht⟩ := h
  exact ⟨[], t, by simpa using ht⟩

theorem startsParenYear_iff {s : Str} :
    startsParenYear s = true ↔
      ∃ d1 d2 d3 d4 rest, s = '(' :: d1 :: d2 :: d3 :: d4 :: ')' :: rest ∧
        d1.isDigit = true ∧ d2.isDigit = true ∧ d3.isDigit = true ∧
        d4.isDigit = true := by
  constructor
  · intro h
    rcases s with _ | ⟨c0, _ | ⟨d1, _ | ⟨d2, _ | ⟨d3, _ | ⟨d4, _ | ⟨c5, rest⟩⟩⟩⟩⟩⟩ <;>
      simp [startsParenYear] at h
    obtain ⟨⟨⟨⟨⟨h0, h1⟩, h2⟩, h3⟩, h4⟩, h5⟩ := h
    subst h0
    subst h5
    exact ⟨d1, d2, d3, d4, rest, rfl, h1, h2, h3, h4⟩
  · rintro ⟨d1, d2, d3, d4, rest, rfl, h1, h2, h3, h4⟩
    simp [startsParenYear, h1, h2, h3, h4]

theorem hasParenYear_iff_found {l : Str} :
    hasParenYear l = true ↔
      ∃ d1 d2 d3 d4, (d1.isDigit = true ∧ d2.isDigit = true ∧
        d3.isDigit = true ∧ d4.isDigit = true) ∧
        ('(' :: d1 :: d2 :: d3 :: d4 :: [')']) <:+: l := by
  induction l with
  | nil =>
    constructor
    · intro h; simp [hasParenYear] at h
    · rintro ⟨d1, d2, d3, d4, _, hinf⟩
      simpa using List.eq_nil_of_infix_nil hinf
  | cons c cs ih =>
    simp only [hasParenYear, Bool.or_eq_true]
    constructor
    · rintro (h | h)
      · obtain ⟨d1, d2, d3, d4, rest, heq, h1, h2, h3, h4⟩ :=
          startsParenYear_iff.mp h
        exact ⟨d1, d2, d3, d4, ⟨h1, h2, h3, h4⟩,
          isInfix_of_pre ⟨rest, by rw [heq]; rfl⟩⟩
      · obtain ⟨d1, d2, d3, d4, hd, hinf⟩ := ih.mp h
        exact ⟨d1, d2, d3, d4, hd, hinf.trans (List.infix_cons List.infix_rfl)⟩
    · rintro ⟨d1, d2, d3, d4, ⟨h1, h2, h3, h4⟩, hinf⟩
      rcases List.infix_cons_iff.mp hinf with hpre | hinf'
      · obtain ⟨t, ht⟩ := hpre
        refine Or.inl (startsParenYear_iff.mpr
          ⟨d1, d2, d3, d4, t, ?_, h1, h2, h3, h4⟩)
        simpa using ht.symm
      · exact Or.inr (ih.mpr ⟨d1, d2, d3, d4, ⟨h1, h2, h3, h4⟩, hinf'⟩)

theorem hasParenYear_mono {l₁ l₂ : Str} (h : l₁ <:+: l₂)
    (hp : hasParenYear l₁ = true) : hasParenYear l₂ = true := by
  obtain ⟨d1, d2, d3, d4, hd, hinf⟩ := hasParenYear_iff_found.mp hp
  exact hasParenYear_iff_found.mpr ⟨d1, d2, d3, d4, hd, hinf.trans h⟩

/-- Inversion of a successful `\s*\((\d{4})\)` head match. -/
theorem parenYearAt_some {s y : Str} (h : parenYearAt s = some y) :
    ∃ d1 d2 d3 d4 rest,
      s.dropWhile isWS = '(' :: d1 :: d2 :: d3 :: d4 :: ')' :: rest ∧
        y = [d1, d2, d3, d4] ∧ d1.isDigit = true ∧ d2.isDigit = true ∧
        d3.isDigit = true ∧ d4.isDigit = true := by
  unfold parenYearAt at h
  split at h
  next d1 d2 d3 d4 rest heq =>
    split at h
    next hd =>
      obtain ⟨⟨⟨hd1, hd2⟩, hd3⟩, hd4⟩ := by simpa [Bool.and_eq_true] using hd
      exact ⟨d1, d2, d3, d4, rest, heq, (Option.some_inj.mp h).symm,
        hd1, hd2, hd3, hd4⟩
    next => exact absurd h (by simp)
  next => exact absurd h (by simp)

theorem parenYearAt_some_hasParenYear {s y : Str}
    (h : parenYearAt s = some y) : hasParenYear s = true := by
  obtain ⟨d1, d2, d3, d4, rest, heq, _, h1, h2, h3, h4⟩ := parenYearAt_some h
  refine hasParenYear_mono (List.IsSuffix.isInfix (List.dropWhile_suffix isWS)) ?_
  rw [heq]
  exact hasParenYear_iff_found.mpr
    ⟨d1, d2, d3, d4, ⟨h1, h2, h3, h4⟩, isInfix_of_pre ⟨rest, rfl⟩⟩

/-- The lazy matcher returns the capture at the least viable split point. -/
theorem matchFrom_first :
    ∀ (l taken : Str) (i : Nat) (y : Str), 1 ≤ i → i ≤ l.length →
      (∀ j, j < i → 1 ≤ j → parenYearAt (l.drop j) = none) →
      parenYearAt (l.drop i) = some y →
      matchFrom taken l = some (taken ++ l.take i, y) := by
  intro l
  induction l with
  | nil =>
    intro taken i y h1 h2 _ _
    simp at h2
    omega
  | cons c cs ih =>
    intro taken i y h1 h2 hnone hsome
    match i, h1 with
    | 1, _ =>
      rw [List.drop_succ_cons, List.drop_zero] at hsome
      simp [matchFrom, hsome]
    | (k+2), _ =>
      have hk1 : parenYearAt ((c :: cs).drop 1) = none :=
        hnone 1 (by omega) le_rfl
      rw [List.drop_succ_cons, List.drop_zero] at hk1
      have hrec := ih (taken ++ [c]) (k + 1) y (by omega)
        (by simpa using h2)
        (fun j hj hj1 => by
          have := hnone (j + 1) (by omega) (by omega)
          rwa [List.drop_succ_cons] at this)
        (by rwa [List.drop_succ_cons] at hsome)
      rw [matchFrom, hk1, hrec]
      simp

/-- The matcher fails when no split point is viable. -/
theorem matchFrom_none :
    ∀ (l taken : Str), (∀ j, 1 ≤ j → parenYearAt (l.drop j) = none) →
      matchFrom taken l = none := by
  intro l
  induction l with
  | nil => intro taken _; rfl
  | cons c cs ih =>
    intro taken h
    have h1 : parenYearAt cs = none := by
      have := h 1 le_rfl
      rwa [List.drop_succ_cons, List.drop_zero] at this
    rw [matchFrom, h1]
    exact ih (taken ++ [c]) fun j hj => by
      have := h (j + 1) (by omega)
      rwa [List.drop_succ_cons] at this

theorem dropWhile_head_fail {p : Char → Bool} :
    ∀ {l : Str} {c : Char} {cs : Str}, l.dropWhile p = c :: cs → p c = false := by
  intro l
  induction l with
  | nil => intro c cs h; simp at h
  | cons a as ih =>
    intro c cs h
    by_cases hp : p a
    · rw [List.dropWhile_cons, if_pos hp] at h
      exact ih h
    · rw [List.dropWhile_cons, if_neg hp] at h
      rw [List.cons.injEq] at h
      obtain ⟨h1, -⟩ := h
      subst h1
      cases hb : p a
      · rfl
      · exact absurd hb hp

theorem dropWhile_idem {p : Char → Bool} (l : Str) :
    (l.dropWhile p).dropWhile p = l.dropWhile p := by
  cases h : l.dropWhile p with
  | nil => rfl
  | cons c cs => simp [List.dropWhile_cons, dropWhile_head_fail h]

theorem revDrop_pre (u : Str) (p : Char → Bool) :
    (u.reverse.dropWhile p).reverse <+: u := by
  conv_rhs =>
    rw [← u.reverse_reverse,
      ← List.takeWhile_append_dropWhile (p := p) (l := u.reverse)]
  rw [List.reverse_append]
  exact List.prefix_append _ _

theorem trimStr_idem (s : Str) : trimStr (trimStr s) = trimStr s := by
  have h1 : (trimStr s).dropWhile isWS = trimStr s := by
    cases ht : trimStr s with
    | nil => rfl
    | cons c cs =>
      have hpre : trimStr s <+: s.dropWhile isWS := revDrop_pre _ _
      rw [ht] at hpre
      obtain ⟨t, htt⟩ := hpre
      have hc : isWS c = false := dropWhile_head_fail (by simpa using htt.symm)
      simp [List.dropWhile_cons, hc]
  have h2 : (trimStr s).reverse.dropWhile isWS = (trimStr s).reverse := by
    have hrev : (trimStr s).reverse =
        (s.dropWhile isWS).reverse.dropWhile isWS := by
      show ((((s.dropWhile isWS).reverse.dropWhile isWS).reverse).reverse) = _
      rw [List.reverse_reverse]
    rw [hrev]
    exact dropWhile_idem _
  show (((trimStr s).dropWhile isWS).reverse.dropWhile isWS).reverse = trimStr s
  rw [h1, h2, List.reverse_reverse]

theorem trimStr_within (x : Str) : trimStr x <:+: x :=
  (isInfix_of_pre (revDrop_pre (x.dropWhile isWS) isWS)).trans
    (List.IsSuffix.isInfix (List.dropWhile_suffix isWS))

/-- Inversion for the quote-normalising character map: any output other
than `"` equals the input. -/
theorem quote_inv {a d : Char}
    (h : (if a == Char.ofNat 0x201C || a == Char.ofNat 0x201D then '"'
      else a) = d) (hd : d ≠ '"') : a = d := by
  by_cases hc : (a == Char.ofNat 0x201C || a == Char.ofNat 0x201D) = true
  · rw [if_pos hc] at h
    exact absurd h.symm hd
  · rwa [if_neg hc] at h

theorem digit_ne_quote {d : Char} (h : d.isDigit = true) : d ≠ '"' := by
  intro hc
  subst hc
  exact absurd h (by decide)

theorem hasParenYear_map_quotes {s : Str} :
    hasParenYear (normQuotes s) = true → hasParenYear s = true := by
  induction s with
  | nil => intro h; simpa [normQuotes] using h
  | cons a as ih =>
    intro h
    rw [normQuotes, List.map_cons] at h
    rw [hasParenYear, Bool.or_eq_true] at h
    rw [hasParenYear, Bool.or_eq_true]
    rcases h with h | h
    · left
      obtain ⟨d1, d2, d3, d4, rest, heq, h1, h2, h3, h4⟩ :=
        startsParenYear_iff.mp h
      rw [List.cons.injEq] at heq
      obtain ⟨hfa, hmap⟩ := heq
      rcases as with _ | ⟨b1, as1⟩
      · exact absurd hmap (by simp)
      rw [List.map_cons, List.cons.injEq] at hmap
      obtain ⟨hb1, hmap⟩ := hmap
      rcases as1 with _ | ⟨b2, as2⟩
      · exact absurd hmap (by simp)
      rw [List.map_cons, List.cons.injEq] at hmap
      obtain ⟨hb2, hmap⟩ := hmap
      rcases as2 with _ | ⟨b3, as3⟩
      · exact absurd hmap (by simp)
      rw [List.map_cons, List.cons.injEq] at hmap
      obtain ⟨hb3, hmap⟩ := hmap
      rcases as3 with _ | ⟨b4, as4⟩
      · exact absurd hmap (by simp)
      rw [List.map_cons, List.cons.injEq] at hmap
      obtain ⟨hb4, hmap⟩ := hmap
      rcases as4 with _ | ⟨b5, as5⟩
      · exact absurd hmap (by simp)
      rw [List.map_cons, List.cons.injEq] at hmap
      obtain ⟨hb5, -⟩ := hmap
      have ha : a = '(' := quote_inv hfa (by decide)
      have he1 : b1 = d1 := quote_inv hb1 (digit_ne_quote h1)
      have he2 : b2 = d2 := quote_inv hb2 (digit_ne_quote h2)
      have he3 : b3 = d3 := quote_inv hb3 (digit_ne_quote h3)
      have he4 : b4 = d4 := quote_inv hb4 (digit_ne_quote h4)
      have he5 : b5 = ')' := quote_inv hb5 (by decide)
      subst ha he1 he2 he3 he4 he5
      simp [startsParenYear, h1, h2, h3, h4]
    · exact Or.inr (ih h)

theorem digit_ne_space {c : Char} (h : c.isDigit = true) : c ≠ ' ' := by
  intro hc
  subst hc
  exact absurd h (by decide)

theorem collapse_peel {cs : Str} {x : Char} {xs : Str}
    (h : collapseWSAux false cs = x :: xs) (hx : x ≠ ' ') :
    ∃ cs', cs = x :: cs' ∧ collapseWSAux false cs' = xs := by
  cases cs with
  | nil => simp [collapseWSAux] at h
  | cons a as =>
    by_cases ha : isWS a
    · rw [collapseWSAux, if_pos ha, if_neg (by simp)] at h
      rw [List.cons.injEq] at h
      exact absurd h.1.symm hx
    · rw [collapseWSAux, if_neg ha] at h
      rw [List.cons.injEq] at h
      exact ⟨as, by rw [h.1], h.2⟩

theorem hasParenYear_collapseAux :
    ∀ (s : Str) (b : Bool), hasParenYear (collapseWSAux b s) = true →
      hasParenYear s = true := by
  intro s
  induction s with
  | nil => intro b h; simpa [collapseWSAux] using h
  | cons a as ih =>
    intro b h
    rw [hasParenYear, Bool.or_eq_true]
    by_cases ha : isWS a
    · cases b with
      | true =>
        rw [collapseWSAux, if_pos ha, if_pos rfl] at h
        exact Or.inr (ih true h)
      | false =>
        rw [collapseWSAux, if_pos ha, if_neg (by simp)] at h
        rw [hasParenYear, Bool.or_eq_true] at h
        rcases h with h | h
        · obtain ⟨d1, d2, d3, d4, rest, heq, -⟩ := startsParenYear_iff.mp h
          rw [List.cons.injEq] at heq
          exact absurd heq.1 (by decide)
        · exact Or.inr (ih true h)
    · rw [collapseWSAux, if_neg ha] at h
      rw [hasParenYear, Bool.or_eq_true] at h
      rcases h with h | h
      · left
        obtain ⟨d1, d2, d3, d4, rest, heq, h1, h2, h3, h4⟩ :=
          startsParenYear_iff.mp h
        rw [List.cons.injEq] at heq
        obtain ⟨rfl, htail⟩ := heq
        obtain ⟨as1, he1, hc1⟩ := collapse_peel htail (digit_ne_space h1)
        obtain ⟨as2, he2, hc2⟩ := collapse_peel hc1 (digit_ne_space h2)
        obtain ⟨as3, he3, hc3⟩ := collapse_peel hc2 (digit_ne_space h3)
        obtain ⟨as4, he4, hc4⟩ := collapse_peel hc3 (digit_ne_space h4)
        obtain ⟨as5, he5, -⟩ := collapse_peel hc4 (by decide)
        subst he1 he2 he3 he4 he5
        simp [startsParenYear, h1, h2, h3, h4]
      · exact Or.inr (ih false h)

/-- No parenthesized 4-digit year survives (or is created by) the
`extractMovieInfo` normalisation. -/
theorem hasParenYear_normalize {s : Str} (h : hasParenYear s = false) :
    hasParenYear (normalizeInput s) = false := by
  cases hb : hasParenYear (normalizeInput s) with
  | false => rfl
  | true =>
    have h1 : hasParenYear (normQuotes (collapseWS s)) = true :=
      hasParenYear_mono (trimStr_within _) hb
    have h2 : hasParenYear (collapseWS s) = true := hasParenYear_map_quotes h1
    have h3 : hasParenYear s = true := hasParenYear_collapseAux s false h2
    rw [h3] at h
    exact absurd h (by simp)

theorem matchFrom_none_of_noParen {n : Str} (h : hasParenYear n = false) :
    matchFrom [] n = none := by
  refine matchFrom_none n [] fun j hj => ?_
  cases hp : parenYearAt (n.drop j) with
  | none => rfl
  | some y =>
    have h1 := parenYearAt_some_hasParenYear hp
    have h2 : hasParenYear n = true :=
      hasParenYear_mono (List.IsSuffix.isInfix (List.drop_suffix j n)) h1
    rw [h2] at h
    exact absurd h (by simp)

theorem extractMovieInfo_eq_of_none {s : Str}
    (h : matchFrom [] (normalizeInput s) = none) :
    extractMovieInfo s =
      ⟨trimStr ((normalizeInput s).takeWhile (fun c => c ≠ '-')), []⟩ := by
  show (match matchFrom [] (normalizeInput s) with
    | some (t, y) => MovieInfo.mk (trimStr t) y
    | none => MovieInfo.mk
        (trimStr ((normalizeInput s).takeWhile (fun c => c ≠ '-'))) []) = _
  rw [h]

theorem extractMovieInfo_eq_of_some {s t y : Str}
    (h : matchFrom [] (normalizeInput s) = some (t, y)) :
    extractMovieInfo s = ⟨trimStr t, y⟩ := by
  show (match matchFrom [] (normalizeInput s) with
    | some (t, y) => MovieInfo.mk (trimStr t) y
    | none => MovieInfo.mk
        (trimStr ((normalizeInput s).takeWhile (fun c => c ≠ '-'))) []) = _
  rw [h]

theorem takeWhile_eq_self {p : Char → Bool} :
    ∀ {l : Str}, (∀ c ∈ l, p c = true) → l.takeWhile p = l := by
  intro l
  induction l with
  | nil => intro _; rfl
  | cons a as ih =>
    intro h
    rw [List.takeWhile_cons, if_pos (h a (List.mem_cons_self _ _)),
      ih fun c hc => h c (List.mem_cons_of_mem _ hc)]

/-! ### Decomposing the normalisation of a formatted input -/

theorem collapse_append (B : Str) :
    ∀ (A : Str) (b : Bool),
      collapseWSAux b (A ++ B) =
        collapseWSAux b A ++ collapseWSAux (wsEnd b A) B := by
  intro A
  induction A with
  | nil => intro b; rfl
  | cons c cs ih =>
    intro b
    by_cases hc : isWS c
    · simp only [List.cons_append, collapseWSAux, hc, if_true, wsEnd]
      cases b <;> simp [ih true]
    · simp only [List.cons_append, collapseWSAux, hc, if_false, wsEnd]
      simp [ih false]

theorem wsEnd_true_trailing :
    ∀ (A : Str) (b : Bool), wsEnd b A = true →
      (collapseWSAux b A = [] ∧ b = true) ∨
        ∃ A', collapseWSAux b A = A' ++ [' '] := by
  intro A
  induction A with
  | nil =>
    intro b hb
    exact Or.inl ⟨rfl, hb⟩
  | cons c cs ih =>
    intro b hb
    rw [wsEnd] at hb
    by_cases hc : isWS c
    · rw [hc] at hb
      rcases ih true hb with ⟨he, -⟩ | ⟨A', hA'⟩
      · cases b
        · exact Or.inr ⟨[], by simp [collapseWSAux, hc, he]⟩
        · exact Or.inl ⟨by simp [collapseWSAux, hc, he], rfl⟩
      · cases b
        · exact Or.inr ⟨' ' :: A', by simp [collapseWSAux, hc, hA']⟩
        · exact Or.inr ⟨A', by simp [collapseWSAux, hc, hA']⟩
    · have hcf : isWS c = false := by simpa using hc
      rw [hcf] at hb
      rcases ih false hb with ⟨-, hfalse⟩ | ⟨A', hA'⟩
      · exact absurd hfalse (by simp)
      · exact Or.inr ⟨c :: A', by simp [collapseWSAux, hc, hA']⟩

theorem mem_collapse_of_not_ws {c : Char} (hc : isWS c = false) :
    ∀ (A : Str) (b : Bool), c ∈ A → c ∈ collapseWSAux b A := by
  intro A
  induction A with
  | nil => intro b h; simp at h
  | cons a as ih =>
    intro b h
    rcases List.mem_cons.mp h with rfl | h
    · simp [collapseWSAux, hc]
    · by_cases ha : isWS a
      · simp only [collapseWSAux, ha, if_true]
        cases b
        · exact List.mem_cons_of_mem _ (ih true h)
        · exact ih true h
      · simp only [collapseWSAux, ha, if_false]
        exact List.mem_cons_of_mem _ (ih false h)

theorem dropWhile_append_of_ne {p : Char → Bool} :
    ∀ {A : Str}, (B : Str) → A.dropWhile p ≠ [] →
      (A ++ B).dropWhile p = A.dropWhile p ++ B := by
  intro A
  induction A with
  | nil => intro B h; simp at h
  | cons a as ih =>
    intro B h
    by_cases ha : p a
    · rw [List.dropWhile_cons, if_pos ha] at h
      rw [List.cons_append, List.dropWhile_cons, if_pos ha, ih B h,
        List.dropWhile_cons, if_pos ha]
    · rw [List.cons_append, List.dropWhile_cons, if_neg ha,
        List.dropWhile_cons, if_neg ha, List.cons_append]

theorem dropWhile_ne_nil_of_mem {p : Char → Bool} {A : Str} {c : Char}
    (hc : c ∈ A) (hp : p c = false) : A.dropWhile p ≠ [] := by
  intro h
  have := List.dropWhile_eq_nil_iff.mp h c hc
  rw [this] at hp
  exact absurd hp (by simp)

theorem dropTrail_append {A B : Str} {c : Char} (hc : c ∈ B)
    (hp : isWS c = false) :
    dropTrailWS (A ++ B) = A ++ dropTrailWS B := by
  unfold dropTrailWS
  rw [List.reverse_append,
    dropWhile_append_of_ne _
      (dropWhile_ne_nil_of_mem (List.mem_reverse.mpr hc) hp),
    List.reverse_append, List.reverse_reverse]

theorem dropTrail_decomp (z : Str) :
    ∃ w, z = dropTrailWS z ++ w ∧ ∀ c ∈ w, isWS c = true := by
  refine ⟨(z.reverse.takeWhile isWS).reverse, ?_, ?_⟩
  · conv_lhs => rw [← z.reverse_reverse,
      ← List.takeWhile_append_dropWhile (p := isWS) (l := z.reverse)]
    rw [List.reverse_append]
    rfl
  · intro c hc
    rw [List.mem_reverse] at hc
    exact List.mem_takeWhile_imp hc

theorem mem_dropWhile_of_not {p : Char → Bool} {c : Char} (hp : p c = false) :
    ∀ {A : Str}, c ∈ A → c ∈ A.dropWhile p := by
  intro A
  induction A with
  | nil => intro h; simp at h
  | cons a as ih =>
    intro h
    by_cases ha : p a
    · rw [List.dropWhile_cons, if_pos ha]
      rcases List.mem_cons.mp h with rfl | h
      · exact absurd ha (by simp [hp])
      · exact ih h
    · rw [List.dropWhile_cons, if_neg ha]
      exact h

theorem mem_trim_of_not_ws {c : Char} (hp : isWS c = false) {A : Str}
    (h : c ∈ A) : c ∈ trimStr A := by
  have h1 : c ∈ A.dropWhile isWS := mem_dropWhile_of_not hp h
  show c ∈ ((A.dropWhile isWS).reverse.dropWhile isWS).reverse
  rw [List.mem_reverse]
  exact mem_dropWhile_of_not hp (List.mem_reverse.mpr h1)

theorem isWS_quotesFun (c : Char) :
    isWS (if c == Char.ofNat 0x201C || c == Char.ofNat 0x201D then '"'
      else c) = isWS c := by
  by_cases hc : (c == Char.ofNat 0x201C || c == Char.ofNat 0x201D) = true
  · rw [if_pos hc]
    rcases Bool.or_eq_true_iff.mp hc with h | h <;> rw [beq_iff_eq] at h <;>
      subst h <;> decide
  · rw [if_neg hc]

theorem quotes_collapse_comm :
    ∀ (s : Str) (b : Bool),
      normQuotes (collapseWSAux b s) = collapseWSAux b (normQuotes s) := by
  intro s
  induction s with
  | nil => intro b; rfl
  | cons c cs ih =>
    intro b
    have hQcons : normQuotes (c :: cs) =
        (if c == Char.ofNat 0x201C || c == Char.ofNat 0x201D then '"' else c)
          :: normQuotes cs := rfl
    have hWScons : ∀ X : Str, normQuotes (' ' :: X) = ' ' :: normQuotes X :=
      fun _ => rfl
    by_cases hc : isWS c
    · have hq := isWS_quotesFun c
      rw [hc] at hq
      cases b
      · rw [hQcons, collapseWSAux, if_pos hc,
          if_neg (by simp : ¬(false = true)), collapseWSAux, if_pos hq,
          if_neg (by simp : ¬(false = true)), hWScons, ih true]
      · rw [hQcons, collapseWSAux, if_pos hc, if_pos (rfl : true = true),
          collapseWSAux, if_pos hq, if_pos (rfl : true = true), ih true]
    · have hcf : isWS c = false := by simpa using hc
      have hq := isWS_quotesFun c
      rw [hcf] at hq
      have hQmid : normQuotes (c :: collapseWSAux false cs) =
          (if c == Char.ofNat 0x201C || c == Char.ofNat 0x201D then '"' else c)
            :: normQuotes (collapseWSAux false cs) := rfl
      rw [hQcons, collapseWSAux, if_neg hc, collapseWSAux,
        if_neg (by rw [hq]; simp), hQmid, ih false]

theorem digit_not_ws {c : Char} (h : c.isDigit = true) : isWS c = false := by
  cases hb : isWS c
  · rfl
  · exfalso
    rcases isWS_spec.mp hb with rfl | rfl | rfl | rfl | rfl | rfl <;>
      exact absurd h (by decide)

theorem digit_not_curly {c : Char} (h : c.isDigit = true) :
    (if c == Char.ofNat 0x201C || c == Char.ofNat 0x201D then '"' else c)
      = c := by
  by_cases hc : (c == Char.ofNat 0x201C || c == Char.ofNat 0x201D) = true
  · exfalso
    rcases Bool.or_eq_true_iff.mp hc with h' | h' <;> rw [beq_iff_eq] at h' <;>
      subst h' <;> exact absurd h (by decide)
  · rw [if_neg hc]

/-- Normalising `Title ++ " (dddd) - " ++ Director` yields the normalised
title, then collapsed whitespace, then the intact parenthesized year, then
a remainder — for any title with at least one visible character. -/
theorem normalize_formatted (T D : Str) (d1 d2 d3 d4 : Char)
    (hT : ∃ c ∈ T, isWS c = false)
    (h1 : d1.isDigit = true) (h2 : d2.isDigit = true)
    (h3 : d3.isDigit = true) (h4 : d4.isDigit = true) :
    ∃ w R,
      normalizeInput (T ++ ' ' :: '(' :: d1 :: d2 :: d3 :: d4 :: ')' ::
          ' ' :: '-' :: ' ' :: D) =
        normalizeInput T ++
          (w ++ ' ' :: '(' :: d1 :: d2 :: d3 :: d4 :: ')' :: R) ∧
      ∀ c ∈ w, isWS c = true := by
  have hq1 := digit_not_curly h1
  have hq2 := digit_not_curly h2
  have hq3 := digit_not_curly h3
  have hq4 := digit_not_curly h4
  have hd1w := digit_not_ws h1
  have hd2w := digit_not_ws h2
  have hd3w := digit_not_ws h3
  have hd4w := digit_not_ws h4
  have e1 : normQuotes (T ++ ' ' :: '(' :: d1 :: d2 :: d3 :: d4 :: ')' ::
      ' ' :: '-' :: ' ' :: D) =
      normQuotes T ++ ' ' :: '(' :: d1 :: d2 :: d3 :: d4 :: ')' :: ' ' ::
        '-' :: ' ' :: normQuotes D := by
    rw [normQuotes, List.map_append]
    congr 1
    simp only [List.map_cons, hq1, hq2, hq3, hq4,
      (by decide : (if ' ' == Char.ofNat 0x201C ||
        ' ' == Char.ofNat 0x201D then '"' else ' ') = ' '),
      (by decide : (if '(' == Char.ofNat 0x201C ||
        '(' == Char.ofNat 0x201D then '"' else '(') = '('),
      (by decide : (if ')' == Char.ofNat 0x201C ||
        ')' == Char.ofNat 0x201D then '"' else ')') = ')'),
      (by decide : (if '-' == Char.ofNat 0x201C ||
        '-' == Char.ofNat 0x201D then '"' else '-') = '-')]
    rfl
  have e2 : collapseWSAux false (normQuotes (T ++ ' ' :: '(' :: d1 :: d2 ::
      d3 :: d4 :: ')' :: ' ' :: '-' :: ' ' :: D)) =
      collapseWSAux false (normQuotes T) ++
        collapseWSAux (wsEnd false (normQuotes T))
          (' ' :: '(' :: d1 :: d2 :: d3 :: d4 :: ')' :: ' ' :: '-' :: ' ' ::
            normQuotes D) := by
    rw [e1]
    exact collapse_append _ _ false
  have e3f : collapseWSAux false (' ' :: '(' :: d1 :: d2 :: d3 :: d4 :: ')' ::
      ' ' :: '-' :: ' ' :: normQuotes D) =
      ' ' :: '(' :: d1 :: d2 :: d3 :: d4 :: ')' :: ' ' :: '-' :: ' ' ::
        collapseWSAux true (normQuotes D) := by
    simp [collapseWSAux, hd1w, hd2w, hd3w, hd4w,
      (by decide : isWS ' ' = true), (by decide : isWS '(' = false),
      (by decide : isWS ')' = false), (by decide : isWS '-' = false)]
  have e3t : collapseWSAux true (' ' :: '(' :: d1 :: d2 :: d3 :: d4 :: ')' ::
      ' ' :: '-' :: ' ' :: normQuotes D) =
      '(' :: d1 :: d2 :: d3 :: d4 :: ')' :: ' ' :: '-' :: ' ' ::
        collapseWSAux true (normQuotes D) := by
    simp [collapseWSAux, hd1w, hd2w, hd3w, hd4w,
      (by decide : isWS ' ' = true), (by decide : isWS '(' = false),
      (by decide : isWS ')' = false), (by decide : isWS '-' = false)]
  obtain ⟨V, hV, hVtrim, hVmem⟩ : ∃ V,
      collapseWSAux false (normQuotes (T ++ ' ' :: '(' :: d1 :: d2 :: d3 ::
          d4 :: ')' :: ' ' :: '-' :: ' ' :: D)) =
        V ++ ' ' :: '(' :: d1 :: d2 :: d3 :: d4 :: ')' :: ' ' :: '-' :: ' ' ::
          collapseWSAux true (normQuotes D) ∧
      trimStr V = trimStr (collapseWSAux false (normQuotes T)) ∧
      ∀ c, isWS c = false → c ∈ collapseWSAux false (normQuotes T) →
        c ∈ V := by
    cases hst : wsEnd false (normQuotes T)
    · refine ⟨collapseWSAux false (normQuotes T), ?_, rfl, fun c _ hc => hc⟩
      rw [e2, hst, e3f]
    · rcases wsEnd_true_trailing (normQuotes T) false hst with
        ⟨-, hfalse⟩ | ⟨A', hA'⟩
      · exact absurd hfalse (by simp)
      · refine ⟨A', ?_, ?_, ?_⟩
        · rw [e2, hst, e3t, hA']
          simp
        · rw [hA']
          exact (trimStr_append_ws (by
            intro c hc
            rw [List.mem_singleton] at hc
            subst hc
            decide)).symm
        · intro c hcw hc
          rw [hA'] at hc
          rcases List.mem_append.mp hc with h | h
          · exact h
          · rw [List.mem_singleton] at h
            subst h
            exact absurd hcw (by decide)
  obtain ⟨c₀, hc₀T, hc₀w⟩ := hT
  have hqcw : isWS (if c₀ == Char.ofNat 0x201C || c₀ == Char.ofNat 0x201D
      then '"' else c₀) = false := by
    rw [isWS_quotesFun]
    exact hc₀w
  have hqcQT : (if c₀ == Char.ofNat 0x201C || c₀ == Char.ofNat 0x201D
      then '"' else c₀) ∈ normQuotes T :=
    List.mem_map.mpr ⟨c₀, hc₀T, rfl⟩
  have hVc : (if c₀ == Char.ofNat 0x201C || c₀ == Char.ofNat 0x201D
      then '"' else c₀) ∈ V :=
    hVmem _ hqcw (mem_collapse_of_not_ws hqcw _ false hqcQT)
  have hVdropne : V.dropWhile isWS ≠ [] :=
    dropWhile_ne_nil_of_mem hVc hqcw
  have hn1 : normalizeInput (T ++ ' ' :: '(' :: d1 :: d2 :: d3 :: d4 :: ')' ::
      ' ' :: '-' :: ' ' :: D) =
      trimStr (V ++ ' ' :: '(' :: d1 :: d2 :: d3 :: d4 :: ')' :: ' ' :: '-' ::
        ' ' :: collapseWSAux true (normQuotes D)) := by
    show trimStr (normQuotes (collapseWSAux false _)) = _
    rw [quotes_collapse_comm, hV]
  have htrim_eq : ∀ z : Str, trimStr z = dropTrailWS (z.dropWhile isWS) :=
    fun _ => rfl
  rw [htrim_eq, dropWhile_append_of_ne _ hVdropne] at hn1
  have hassoc : V.dropWhile isWS ++ ' ' :: '(' :: d1 :: d2 :: d3 :: d4 ::
      ')' :: ' ' :: '-' :: ' ' :: collapseWSAux true (normQuotes D) =
      (V.dropWhile isWS ++ ' ' :: '(' :: d1 :: d2 :: d3 :: d4 :: [')']) ++
        (' ' :: '-' :: ' ' :: collapseWSAux true (normQuotes D)) := by
    simp
  rw [hassoc, dropTrail_append (c := '-') (by simp) (by decide)] at hn1
  obtain ⟨w, hwdec, hwws⟩ := dropTrail_decomp (V.dropWhile isWS)
  rw [← htrim_eq V] at hwdec
  have hNT : trimStr V = normalizeInput T := by
    rw [hVtrim]
    show trimStr (collapseWSAux false (normQuotes T)) =
      trimStr (normQuotes (collapseWSAux false T))
    rw [quotes_collapse_comm]
  refine ⟨w, dropTrailWS (' ' :: '-' :: ' ' ::
    collapseWSAux true (normQuotes D)), ?_, hwws⟩
  rw [hn1, hwdec, hNT]
  simp

/-! ### C3: parsing a well-formed `Title (Year) - Director` string -/

/-- C3: on every input of the shape `Title (Year) - Director` whose year is
four digits, whose title has at least one visible character, and which
offers the matcher no parenthesized-year split inside the title, the parser
returns the title before the parenthesized year — whitespace-normalized
and trimmed, i.e. `normalizeInput Title` — together with that year. -/
theorem extract_formatted_title_year (T y D : Str)
    (hT : ∃ c ∈ T, isWS c = false)
    (hylen : y.length = 4) (hyd : y.all Char.isDigit = true)
    (hnoEarly : ∀ j, j < (normalizeInput T).length → 1 ≤ j →
      parenYearAt
        ((normalizeInput
          (T ++ ' ' :: '(' :: (y ++ ')' :: ' ' :: '-' :: ' ' :: D))).drop j) =
        none) :
    extractMovieInfo (T ++ ' ' :: '(' :: (y ++ ')' :: ' ' :: '-' :: ' ' :: D))
      = ⟨normalizeInput T, y⟩ := by
  obtain ⟨d1, d2, d3, d4, rfl⟩ : ∃ a b c d, y = [a, b, c, d] := by
    rcases y with _ | ⟨a, _ | ⟨b, _ | ⟨c, _ | ⟨d, _ | ⟨e, tl⟩⟩⟩⟩⟩
    · exact absurd hylen (by decide)
    · exact absurd hylen (by simp)
    · exact absurd hylen (by simp)
    · exact absurd hylen (by simp)
    · exact ⟨a, b, c, d, rfl⟩
    · refine absurd hylen (by simp only [List.length_cons]; omega)
  obtain ⟨h1, h2, h3, h4⟩ :
      d1.isDigit = true ∧ d2.isDigit = true ∧ d3.isDigit = true ∧
        d4.isDigit = true := by simpa using hyd
  simp only [List.cons_append, List.nil_append] at hnoEarly ⊢
  obtain ⟨w, R, hn, hw⟩ := normalize_formatted T D d1 d2 d3 d4 hT h1 h2 h3 h4
  have hsome : parenYearAt ((normalizeInput (T ++ ' ' :: '(' :: d1 :: d2 ::
      d3 :: d4 :: ')' :: ' ' :: '-' :: ' ' :: D)).drop
        (normalizeInput T).length) = some [d1, d2, d3, d4] := by
    rw [hn, List.drop_left]
    have hdw : (w ++ ' ' :: '(' :: d1 :: d2 :: d3 :: d4 :: ')' :: R
        ).dropWhile isWS = '(' :: d1 :: d2 :: d3 :: d4 :: ')' :: R := by
      rw [dropWhile_all_append _ hw, List.dropWhile_cons,
        if_pos (by decide), List.dropWhile_cons, if_neg (by decide)]
    simp [parenYearAt, hdw, h1, h2, h3, h4]
  have hb1 : 1 ≤ (normalizeInput T).length := by
    obtain ⟨c₀, hc₀T, hc₀w⟩ := hT
    have hqcw : isWS (if c₀ == Char.ofNat 0x201C || c₀ == Char.ofNat 0x201D
        then '"' else c₀) = false := by
      rw [isWS_quotesFun]
      exact hc₀w
    have hmem : (if c₀ == Char.ofNat 0x201C || c₀ == Char.ofNat 0x201D
        then '"' else c₀) ∈ normalizeInput T :=
      mem_trim_of_not_ws hqcw
        (List.mem_map.mpr ⟨c₀, mem_collapse_of_not_ws hc₀w _ false hc₀T, rfl⟩)
    exact List.length_pos.mpr (List.ne_nil_of_mem hmem)
  have hb2 : (normalizeInput T).length ≤
      (normalizeInput (T ++ ' ' :: '(' :: d1 :: d2 :: d3 :: d4 :: ')' ::
        ' ' :: '-' :: ' ' :: D)).length := by
    rw [hn, List.length_append]
    omega
  have hmatch := matchFrom_first _ [] (normalizeInput T).length
    [d1, d2, d3, d4] hb1 hb2 hnoEarly hsome
  simp only [List.nil_append] at hmatch
  have hm2 : matchFrom []
      (normalizeInput (T ++ ' ' :: '(' :: d1 :: d2 :: d3 :: d4 :: ')' ::
        ' ' :: '-' :: ' ' :: D)) =
      some (normalizeInput T, [d1, d2, d3, d4]) := by
    rw [hmatch, hn, List.take_left]
  rw [extractMovieInfo_eq_of_some hm2]
  have hfix : trimStr (normalizeInput T) = normalizeInput T := by
    show trimStr (trimStr (normQuotes (collapseWS T))) = _
    exact trimStr_idem _
  rw [hfix]

theorem extract_formatted_title_year_witness :
    extractMovieInfo "Foo Bar (1999) - Some Director".data =
      ⟨"Foo Bar".data, "1999".data⟩ ∧
    extractMovieInfo "Foo  Bar (1999) - Some Director".data =
      ⟨"Foo Bar".data, "1999".data⟩ ∧
    extractMovieInfo " Padded Title (2001) - D".data =
      ⟨"Padded Title".data, "2001".data⟩ := by
  refine ⟨?_, ?_, ?_⟩
  · exact extract_formatted_title_year "Foo Bar".data "1999".data
      "Some Director".data (by decide) (by decide) (by decide) (by decide)
  · exact extract_formatted_title_year "Foo  Bar".data "1999".data
      "Some Director".data (by decide) (by decide) (by decide) (by decide)
  · exact extract_formatted_title_year " Padded Title".data "2001".data
      "D".data (by decide) (by decide) (by decide) (by decide)

/-! ### C4: inputs without a parenthesized 4-digit year -/

/-- C4 counterexample: the input `"a  b"` (double space, no year, no
hyphen) is returned with its whitespace collapsed, not unmodified. -/
theorem extract_no_year_counterexample :
    extractMovieInfo "a  b".data ≠ ⟨"a  b".data, []⟩ ∧
    extractMovieInfo "a  b".data = ⟨"a b".data, []⟩ := by
  constructor
  · decide
  · decide

/-- C4 amended: on an input containing no parenthesized 4-digit year, the
parser (a total function) returns the substring before the first hyphen of
the *normalised* input, trimmed, with empty year; with no hyphen at all it
returns the whole normalised (whitespace-collapsed, quote-normalised,
trimmed) input as the title — not the original string. -/
theorem extract_no_year_amended (s : Str) (h : hasParenYear s = false) :
    extractMovieInfo s =
      ⟨trimStr ((normalizeInput s).takeWhile (fun c => c ≠ '-')), []⟩ ∧
    ('-' ∉ s → extractMovieInfo s = ⟨normalizeInput s, []⟩) := by
  have hn := hasParenYear_normalize h
  have hm := matchFrom_none_of_noParen hn
  refine ⟨extractMovieInfo_eq_of_none hm, fun hd => ?_⟩
  have hd2 : ∀ c ∈ normalizeInput s, (decide (c ≠ '-')) = true := by
    intro c hc
    refine decide_eq_true fun hceq => ?_
    subst hceq
    have h1 := mem_trimStr hc
    obtain ⟨a, ha, hfa⟩ := List.mem_map.mp h1
    have ha' : a = '-' := quote_inv hfa (by decide)
    subst ha'
    rcases mem_collapseWSAux _ false ha with h' | ⟨h2, -⟩
    · exact absurd h' (by decide)
    · exact hd h2
  have ht : (normalizeInput s).takeWhile (fun c => c ≠ '-') =
      normalizeInput s := takeWhile_eq_self hd2
  have htrim : trimStr (normalizeInput s) = normalizeInput s := by
    show trimStr (trimStr (normQuotes (collapseWS s))) = _
    exact trimStr_idem _
  rw [extractMovieInfo_eq_of_none hm, ht, htrim]

/-- Stub inputs for the C4 amended witness. -/
theorem extract_no_year_amended_witness :
    extractMovieInfo "a  b - c".data =
      ⟨trimStr ((normalizeInput "a  b - c".data).takeWhile
        (fun c => c ≠ '-')), []⟩ ∧
    extractMovieInfo "No Hyphen Here".data =
      ⟨normalizeInput "No Hyphen Here".data, []⟩ :=
  ⟨(extract_no_year_amended "a  b - c".data (by decide)).1,
    (extract_no_year_amended "No Hyphen Here".data (by decide)).2 (by decide)⟩

/-! ### C10: totality and shape invariants of the parser -/

theorem candLE_iff (title year : Str) (a b : Candidate) :
    candLE title year a b ↔
      (combinedScore title year b < combinedScore title year a ∨
        (combinedScore title year a = combinedScore title year b ∧
          popularity b ≤ popularity a)) := by
  unfold candLE cmpCandidates
  by_cases h : combinedScore title year a = combinedScore title year b
  · rw [if_neg (fun hne => hne h)]
    constructor
    · intro hle
      exact Or.inr ⟨h, by linarith [sub_nonpos.mp hle]⟩
    · rintro (hlt | ⟨-, hp⟩)
      · omega
      · linarith
  · rw [if_pos h]
    constructor
    · intro hle
      left
      have hc : (combinedScore title year b : ℚ) ≤
          combinedScore title year a := by linarith
      have hbs : combinedScore title year b ≤ combinedScore title year a := by
        exact_mod_cast hc
      omega
    · rintro (hlt | ⟨heq, -⟩)
      · have hc : (combinedScore title year b : ℚ) ≤
            (combinedScore title year a : ℚ) := by
          exact_mod_cast Nat.le_of_lt hlt
        linarith
      · exact absurd heq h

theorem candLE_total (title year : Str) (a b : Candidate) :
    candLE title year a b ∨ candLE title year b a := by
  rw [candLE_iff, candLE_iff]
  rcases Nat.lt_trichotomy (combinedScore title year a)
    (combinedScore title year b) with h | h | h
  · exact Or.inr (Or.inl h)
  · rcases le_total (popularity b) (popularity a) with hp | hp
    · exact Or.inl (Or.inr ⟨h, hp⟩)
    · exact Or.inr (Or.inr ⟨h.symm, hp⟩)
  · exact Or.inl (Or.inl h)

theorem candLE_trans (title year : Str) (a b c : Candidate)
    (hab : candLE title year a b) (hbc : candLE title year b c) :
    candLE title year a c := by
  rw [candLE_iff] at hab hbc ⊢
  rcases hab with h1 | ⟨h1, p1⟩ <;> rcases hbc with h2 | ⟨h2, p2⟩
  · exact Or.inl (by omega)
  · exact Or.inl (by omega)
  · exact Or.inl (by omega)
  · exact Or.inr ⟨by omega, le_trans p2 p1⟩

theorem candLE_refl (title year : Str) (a : Candidate) :
    candLE title year a a :=
  (candLE_iff title year a a).mpr (Or.inr ⟨rfl, le_refl _⟩)

theorem exactTitle_le_one (title : Str) (c : Candidate) :
    exactTitle title c ≤ 1 := by
  unfold exactTitle; split <;> omega

theorem exactYear_le_one (year : Str) (c : Candidate) :
    exactYear year c ≤ 1 := by
  unfold exactYear; split <;> omega

theorem combinedScore_eq_three_iff (title year : Str) (c : Candidate) :
    combinedScore title year c = 3 ↔
      exactTitle title c = 1 ∧ exactYear year c = 1 := by
  have h1 := exactTitle_le_one title c
  have h2 := exactYear_le_one year c
  unfold combinedScore
  omega

/-- C1: the candidate sort orders by the comparator's total preorder —
score `2·[exact title match] + [exact year match, only with a parsed
year]` descending, ties by `vote_count · vote_average` descending — as a
permutation of the input; the rank-0 candidate used for the detail lookup
dominates every candidate; and with equal popularities the unique candidate
matching both title and year is selected. -/
theorem ranking_selects_best (title year : Str) (l : List Candidate) :
    List.Sorted (candLE title year) (sortCandidates title year l) ∧
    (sortCandidates title year l).Perm l ∧
    (∀ c₀, selectCandidate title year l = some c₀ →
      c₀ ∈ l ∧ ∀ c ∈ l, candLE title year c₀ c) ∧
    (∀ c ∈ l, exactTitle title c = 1 → exactYear year c = 1 →
      (∀ d ∈ l, d ≠ c →
        ¬(exactTitle title d = 1 ∧ exactYear year d = 1)) →
      (∀ d ∈ l, popularity d = popularity c) →
      selectCandidate title year l = some c) := by
  haveI : IsTotal Candidate (candLE title year) := ⟨candLE_total title year⟩
  haveI : IsTrans Candidate (candLE title year) := ⟨candLE_trans title year⟩
  have hsort : List.Sorted (candLE title year) (sortCandidates title year l) :=
    List.sorted_insertionSort (candLE title year) l
  have hperm : (sortCandidates title year l).Perm l :=
    List.perm_insertionSort (candLE title year) l
  have hmax : ∀ c₀, selectCandidate title year l = some c₀ →
      c₀ ∈ l ∧ ∀ c ∈ l, candLE title year c₀ c := by
    intro c₀ hc₀
    unfold selectCandidate at hc₀
    cases hs : sortCandidates title year l with
    | nil => rw [hs] at hc₀; simp at hc₀
    | cons h0 rest =>
      rw [hs] at hc₀
      simp only [List.head?_cons, Option.some_inj] at hc₀
      subst hc₀
      constructor
      · exact hperm.mem_iff.mp (by rw [hs]; exact List.mem_cons_self _ _)
      · intro c hc
        have hc' : c ∈ sortCandidates title year l := hperm.mem_iff.mpr hc
        rw [hs] at hc'
        rcases List.mem_cons.mp hc' with rfl | hc''
        · exact candLE_refl title year c
        · rw [hs] at hsort
          exact List.rel_of_sorted_cons hsort c hc''
  refine ⟨hsort, hperm, hmax, ?_⟩
  intro c hcl ht hy huniq _
  cases hs : sortCandidates title year l with
  | nil =>
    have hcm : c ∈ sortCandidates title year l := hperm.mem_iff.mpr hcl
    rw [hs] at hcm
    simp at hcm
  | cons c₀ rest =>
    have hsel : selectCandidate title year l = some c₀ := by
      unfold selectCandidate
      rw [hs]
      rfl
    obtain ⟨hc₀l, hdom⟩ := hmax c₀ hsel
    by_cases hcc : c₀ = c
    · rw [hsel, hcc]
    · exfalso
      have hle := hdom c hcl
      have hsc : combinedScore title year c = 3 :=
        (combinedScore_eq_three_iff title year c).mpr ⟨ht, hy⟩
      have hnot : ¬(exactTitle title c₀ = 1 ∧ exactYear year c₀ = 1) :=
        huniq c₀ hc₀l hcc
      have hsc₀ : combinedScore title year c₀ ≠ 3 := fun h3 =>
        hnot ((combinedScore_eq_three_iff title year c₀).mp h3)
      have hb₀ : combinedScore title year c₀ ≤ 3 := by
        have hbt := exactTitle_le_one title c₀
        have hby := exactYear_le_one year c₀
        unfold combinedScore
        omega
      rcases (candLE_iff title year c₀ c).mp hle with hlt | ⟨heq, -⟩
      · omega
      · omega

theorem ranking_selects_best_witness :
    selectCandidate "heat".data "1995".data [offYearCand, matchingCand] =
      some matchingCand :=
  (ranking_selects_best "heat".data "1995".data
    [offYearCand, matchingCand]).2.2.2 matchingCand (by decide) (by decide)
    (by decide) (by decide)
    (by
      intro d hd
      rcases List.mem_cons.mp hd with rfl | hd
      · rfl
      · rcases List.mem_cons.mp hd with rfl | hd
        · rfl
        · simp at hd)

end Toss
